import Mathlib

/-!
Verification of the analytics transformation pipeline of the
`jira-metrics-extract` repository against its natural-language
specification.

The repository ships a thin CLI (`src/jira_cycle_extract/cli.py`) over an
analytics engine (`cycletime` / `charting` modules) whose source is not part
of the visible tree; only its call sites in `cli.py` are.  Definitions that
embed the missing engine are modelled from the specification and marked
`Modelled from the spec:` in their doc comments; definitions taken from
`cli.py` cite the line they translate.  Timestamps are modelled at whole-day
granularity as integers.
-/

namespace JiraCycleExtract

/-- Modelled from the spec: a `StageDefinition` is a named workflow stage
with the set of underlying statuses mapping to it; the ordered list of
stage definitions is the run configuration (spec section 3). -/
structure StageDefinition where
  name : String
  statuses : List String
deriving DecidableEq, Inhabited

/-- Modelled from the spec: one entry of an issue's ordered history of
(status, timestamp) transitions (spec section 3, IssueRecord). -/
structure Transition where
  status : String
  ts : Int
deriving DecidableEq

/-- Modelled from the spec: the part of an `IssueRecord` the cycle-time
engine reads, namely its key and its status-change history. -/
structure IssueRecord where
  key : String
  transitions : List Transition

/-- Minimum of two optional timestamps: `none` is the absent value and is
the identity. -/
def optMin : Option Int → Option Int → Option Int
  | none, b => b
  | some a, none => some a
  | some a, some b => some (min a b)

/-- Earliest timestamp of a list, `none` when the list is empty. -/
def earliest : List Int → Option Int
  | [] => none
  | t :: rest => optMin (some t) (earliest rest)

/-- Modelled from the spec: whether a raw status belongs to stage `i` or to
any stage at or after it in configured order (the "self-or-later" test of
spec section 4.1; the `cycletime` module implementing it is missing from
`src/`). -/
def statusMapsAtOrAfter (stages : List StageDefinition) (i : Nat) (st : String) : Bool :=
  (stages.drop i).any (fun sd => sd.statuses.contains st)

/-- Modelled from the spec: the entry timestamp of stage `i` for one issue —
the earliest transition into any status of stage `i` or of any later stage
(spec section 4.1, CycleTimeQueryEngine.build). -/
def stageEntry (stages : List StageDefinition) (issue : IssueRecord) (i : Nat) : Option Int :=
  earliest ((issue.transitions.filter
    (fun t => statusMapsAtOrAfter stages i t.status)).map (fun t => t.ts))

/-- Modelled from the spec: the earliest transition into a status of stage
`i` itself (not a later stage). -/
def ownEntry (stages : List StageDefinition) (issue : IssueRecord) (i : Nat) : Option Int :=
  earliest ((issue.transitions.filter
    (fun t => (stages.getD i default).statuses.contains t.status)).map (fun t => t.ts))

/-- Modelled from the spec: the stage-timestamp part of a `CycleTimeRow`,
one optional entry timestamp per configured stage, in stage order. -/
def cycleRow (stages : List StageDefinition) (issue : IssueRecord) : List (Option Int) :=
  (List.range stages.length).map (stageEntry stages issue)

/-- Example stage configuration from spec section 8: Backlog, Committed,
Building, Done, each with one underlying status. -/
def stagesEx : List StageDefinition :=
  [⟨"Backlog", ["To Do"]⟩, ⟨"Committed", ["In Progress"]⟩,
   ⟨"Building", ["Build"]⟩, ⟨"Done", ["Closed"]⟩]

/-- Example issue B from spec section 8: enters Backlog day 0, Committed
day 2, never Building, Done day 4. -/
def issueB : IssueRecord :=
  ⟨"B", [⟨"To Do", 0⟩, ⟨"In Progress", 2⟩, ⟨"Closed", 4⟩]⟩

/-- Modelled from the spec: the intra-row invariant of spec section 3 as
literally stated — stage timestamps, where present, are non-decreasing in
stage order. -/
def RowStageMonotone (r : List (Option Int)) : Prop :=
  ∀ i j a b, i ≤ j → r.getD i none = some a → r.getD j none = some b → a ≤ b

/-- The stronger intra-row invariant the engine's backfill actually
guarantees: whenever stage `j` has a timestamp, every stage `i ≤ j` also has
one, and it is no larger. -/
def RowPresenceClosed (r : List (Option Int)) : Prop :=
  ∀ i j b, i ≤ j → r.getD j none = some b →
    ∃ a, r.getD i none = some a ∧ a ≤ b

/-- The stage-`s` timestamp of a row, absent when the row has no entry. -/
def stageTs (r : List (Option Int)) (s : Nat) : Option Int :=
  r.getD s none

/-- Whether an optional timestamp is present and at most day `d`. -/
def tsLe (o : Option Int) (d : Int) : Bool :=
  match o with
  | some t => decide (t ≤ d)
  | none => false

/-- Modelled from the spec: one cell of the CFD table — the number of rows
whose stage-`s` timestamp is present and at most day `d` (spec section 4.2,
CFDBuilder.build; the `cycletime` module implementing it is missing from
`src/`). -/
def cfdCell (rows : List (List (Option Int))) (s : Nat) (d : Int) : Nat :=
  rows.countP (fun r => tsLe (stageTs r s) d)

/-- Modelled from the spec: DurationExtractor — cycle time of one issue row,
`completed − committed` in whole days (timestamps are day-granular),
clamped to a minimum of 0, absent when the completed stage (the last
configured stage) or the committed stage (the second) was never reached
(spec sections 3 and 4.3; the implementing module is missing from `src/`). -/
def rowDuration (stages : List StageDefinition) (issue : IssueRecord) : Option Int :=
  match stageEntry stages issue (stages.length - 1), stageEntry stages issue 1 with
  | some c, some m => some (max 0 (c - m))
  | _, _ => none

/-- The dense ascending list of the trailing `w` calendar days ending at
`today`. -/
def windowDaysList (today : Int) (w : Nat) : List Int :=
  (List.range w).map (fun (k : Nat) => today - (w : Int) + 1 + (k : Int))

/-- Whether an optional completion day falls within the trailing `w` days of
`today` (the filter of `cli.py` line 124, at day granularity). -/
def inWindow (today : Int) (w : Nat) (c : Option Int) : Bool :=
  match c with
  | some d => decide (today - (w : Int) < d ∧ d ≤ today)
  | none => false

/-- Modelled from the spec: ThroughputCalculator.build — filter completions
to the trailing `w`-day window of `today`, then produce the dense
zero-filled daily completion-count series over that window (spec section
4.4; the implementing module is missing from `src/`, only its call site at
`cli.py` lines 123–125). -/
def throughputSeries (completions : List (Option Int)) (w : Nat) (today : Int) : List Nat :=
  (windowDaysList today w).map
    (fun d => (completions.filter (inWindow today w)).countP (fun c => c == some d))

/-- Linear interpolation between order statistics of a sorted list `s` at
fractional index `h`: the value at `⌊h⌋` plus the fractional part times the
gap to the next element (the next index clamped to the last position). -/
def interpAt (s : List ℚ) (h : ℚ) : ℚ :=
  s.getD (Int.floor h).toNat 0
    + (h - Int.floor h)
      * (s.getD (min ((Int.floor h).toNat + 1) (s.length - 1)) 0
          - s.getD (Int.floor h).toNat 0)

/-- The durations in non-decreasing order. -/
def sortQ (l : List ℚ) : List ℚ :=
  l.mergeSort (fun a b => decide (a ≤ b))

/-- Modelled from the spec: PercentileCalculator — per requested quantile
`q`, the duration value by linear interpolation between order statistics at
fractional index `q · (n − 1)`; an empty input yields the explicit undefined
result `none` (spec section 4.3; the implementing module is missing from
`src/`). -/
def percentile (l : List ℚ) (q : ℚ) : Option ℚ :=
  match l with
  | [] => none
  | _ :: _ => some (interpAt (sortQ l) (q * ((l.length : ℚ) - 1)))

/-- Modelled from the spec: HistogramBuilder — contiguous integer-day bins
from 0 to the maximum observed duration with a frequency count per bin; an
empty input yields the explicit undefined result `none` (spec sections 4.3
and 7; the implementing module is missing from `src/`). -/
def histogram (durations : List Int) : Option (List Nat) :=
  match durations with
  | [] => none
  | _ :: _ =>
    some ((List.range ((durations.foldr (fun a b => max a b) 0).toNat + 1)).map
      (fun d => durations.countP (fun x => x == (d : Int))))

/-- Modelled from the spec: one Monte-Carlo trial of the burn-up forecast —
starting from the current `done` count, repeatedly add one sampled daily
throughput value and advance a day until `target` is reached, returning the
simulated day count; `fuel` bounds the iteration (spec section 4.5; the
implementing module is missing from `src/`). -/
def simulateTrial (draws : Nat → Nat) : Nat → Nat → Nat → Nat → Option Nat
  | 0, _, _, _ => none
  | fuel + 1, target, done, day =>
    if target ≤ done then some day
    else simulateTrial draws fuel target (done + draws day) (day + 1)

/-- Modelled from the spec: BurnupForecastSimulator.forecast — before any
simulation, an entirely-zero historical throughput series is detected and
surfaced as the explicit undefined result `none`; otherwise each of `trials`
trials resamples the series through the injected random source `draw` (spec
sections 4.5 and 7; the implementing module is missing from `src/`). -/
def burnupForecast (throughput : List Nat) (trials target done fuel : Nat)
    (draw : Nat → Nat → Nat) : Option (List (Option Nat)) :=
  if throughput.all (fun x => x == 0) then none
  else some ((List.range trials).map (fun tr =>
    simulateTrial (fun day => throughput.getD (draw tr day % throughput.length) 0)
      fuel target done 0))

/-- The configured stage names in configured order (`cli.py` line 132:
cycle_names). -/
def cycleColumnNames (cycle : List StageDefinition) : List String :=
  cycle.map (fun s => s.name)

/-- The per-issue output column list of `cli.py` line 142: issue metadata
with one column per configured stage name, in stage order. -/
def outputColumns (cycleNames fieldNames queryAttrNames : List String) : List String :=
  ["key", "url", "summary"] ++ cycleNames ++ ["issue_type", "status", "resolution"]
    ++ fieldNames ++ queryAttrNames

/-- `cli.py` line 239: `target = args.charts_burnup_forecast_target or None`
— Python `or` maps both an absent value and the falsy 0 to `None`. -/
def coerceForecastTarget (target : Option Int) : Option Int :=
  match target with
  | none => none
  | some v => if v = 0 then none else some v

/-- `cli.py` line 240: `trials = args.charts_burnup_forecast_trials or 100`
— the argument always carries an int (default 100), and Python `or` maps
the falsy 0 to 100. -/
def coerceForecastTrials (trials : Int) : Int :=
  if trials = 0 then 100 else trials

/-- Numeric value of a decimal digit character. -/
def digitVal (c : Char) : Nat :=
  c.toNat - 48

/-- Value of a digit string read left to right in base 10. -/
def parseDigits (cs : List Char) : Nat :=
  cs.foldl (fun acc c => acc * 10 + digitVal c) 0

/-- Parse an unsigned decimal literal (`"12"`, `"12.5"`, `".5"`, `"12."`),
the fragment of Python `float()` acceptance the quantile option uses. -/
def parseDecimal? (cs : List Char) : Option ℚ :=
  let ip := cs.takeWhile (fun c => c ≠ '.')
  let rest := cs.drop ip.length
  match rest with
  | [] =>
    if ip ≠ [] ∧ ip.all Char.isDigit then some ((parseDigits ip : ℚ)) else none
  | _ :: fp =>
    if (ip ≠ [] ∨ fp ≠ []) ∧ ip.all Char.isDigit ∧ fp.all Char.isDigit then
      some ((parseDigits ip : ℚ) + (parseDigits fp : ℚ) / ((10 : ℚ) ^ fp.length))
    else none

/-- Python `str.strip()`: drop leading and trailing whitespace (strings are
modelled as character lists). -/
def trimChars (cs : List Char) : List Char :=
  ((cs.dropWhile Char.isWhitespace).reverse.dropWhile Char.isWhitespace).reverse

/-- Python `str.split(sep)` for a one-character separator: the empty string
yields one empty piece, and every separator occurrence starts a new piece. -/
def splitOnChar (sep : Char) (cs : List Char) : List (List Char) :=
  match cs with
  | [] => [[]]
  | c :: rest =>
    let r := splitOnChar sep rest
    if c == sep then [] :: r
    else
      match r with
      | [] => [[c]]
      | h :: t => (c :: h) :: t

/-- `float(s.strip())` of `cli.py` line 101, restricted to signed decimal
literals. -/
def parseFloatChars? (cs : List Char) : Option ℚ :=
  match trimChars cs with
  | '-' :: rest => (parseDecimal? rest).map (fun q => -q)
  | '+' :: rest => parseDecimal? rest
  | l => parseDecimal? l

/-- The hard-coded default quantile list of `cli.py` line 97. -/
def defaultQuantiles : List ℚ :=
  [3/10, 1/2, 3/4, 17/20, 19/20]

/-- Outcome of resolving the `--quantiles` option: either an early usage
message or a quantile list to proceed with. -/
inductive QuantilesResolution where
  | usage : QuantilesResolution
  | proceed : List ℚ → QuantilesResolution
deriving DecidableEq

/-- `cli.py` lines 97–105: absent or empty (falsy) `--quantiles` keeps the
default list; otherwise the comma-separated pieces are each stripped and
parsed as floats, any failure producing the usage outcome. -/
def resolveQuantiles (arg : Option (List Char)) : QuantilesResolution :=
  match arg with
  | none => QuantilesResolution.proceed defaultQuantiles
  | some s =>
    if s = [] then QuantilesResolution.proceed defaultQuantiles
    else
      match (splitOnChar ',' s).mapM (fun p => parseFloatChars? p) with
      | some qs => QuantilesResolution.proceed qs
      | none => QuantilesResolution.usage

/-- The externally visible effects of `main` the quantile option can steer. -/
inductive MainStep where
  | printUsage : MainStep
  | connectJira : MainStep
  | computePercentiles : List ℚ → MainStep
  | chartWithPercentiles : List ℚ → MainStep
deriving DecidableEq

/-- Control flow of `main` (`cli.py` lines 99–121 and 206–247) as the
sequence of effects around the quantile option: a parse failure prints the
usage message and returns before the JIRA connection; otherwise the resolved
quantile list is the one passed to the percentile computation and to every
charting call. -/
def mainQuantileFlow (arg : Option (List Char)) : List MainStep :=
  match resolveQuantiles arg with
  | QuantilesResolution.usage => [MainStep.printUsage]
  | QuantilesResolution.proceed qs =>
      [MainStep.connectJira, MainStep.computePercentiles qs,
       MainStep.chartWithPercentiles qs]

lemma optMin_none_right (a : Option Int) : optMin a none = a := by
  cases a <;> rfl

lemma optMin_comm (a b : Option Int) : optMin a b = optMin b a := by
  cases a <;> cases b <;> simp [optMin, min_comm]

lemma optMin_assoc (a b c : Option Int) :
    optMin (optMin a b) c = optMin a (optMin b c) := by
  cases a <;> cases b <;> cases c <;> simp [optMin, min_assoc]

lemma optMin_some_distrib (x : Int) (a b : Option Int) :
    optMin (optMin (some x) a) (optMin (some x) b) = optMin (some x) (optMin a b) := by
  cases a <;> cases b <;>
    simp [optMin, min_assoc, min_comm, min_left_comm, min_self]

lemma earliest_eq_none {l : List Int} : earliest l = none ↔ l = [] := by
  cases l with
  | nil => simp [earliest]
  | cons t rest =>
    cases h : earliest rest <;> simp [earliest, optMin, h]

lemma earliest_mem {l : List Int} {a : Int} (h : earliest l = some a) : a ∈ l := by
  induction l generalizing a with
  | nil => simp [earliest] at h
  | cons t rest ih =>
    cases hr : earliest rest with
    | none =>
      simp only [earliest, hr, optMin_none_right, Option.some.injEq] at h
      simp [← h]
    | some m =>
      simp only [earliest, hr, optMin, Option.some.injEq] at h
      rcases min_choice t m with hc | hc
      · simp [← h, hc]
      · have hm : m ∈ t :: rest := List.mem_cons_of_mem _ (ih hr)
        have : a = m := by rw [← h, hc]
        rwa [this]

lemma earliest_le {l : List Int} {a : Int} (h : earliest l = some a) :
    ∀ b ∈ l, a ≤ b := by
  induction l generalizing a with
  | nil => simp
  | cons t rest ih =>
    intro b hb
    cases hr : earliest rest with
    | none =>
      have : rest = [] := earliest_eq_none.mp hr
      subst this
      simp only [earliest, optMin_none_right, Option.some.injEq] at h
      simp only [List.mem_singleton] at hb
      simp [← h, hb]
    | some m =>
      simp only [earliest, hr, optMin, Option.some.injEq] at h
      rcases List.mem_cons.mp hb with hbt | hbr
      · calc a = min t m := h.symm
          _ ≤ t := min_le_left _ _
          _ = b := hbt.symm
      · calc a = min t m := h.symm
          _ ≤ m := min_le_right _ _
          _ ≤ b := ih hr b hbr

lemma earliest_eq_some_iff {l : List Int} {a : Int} :
    earliest l = some a ↔ a ∈ l ∧ ∀ b ∈ l, a ≤ b := by
  constructor
  · intro h
    exact ⟨earliest_mem h, earliest_le h⟩
  · rintro ⟨hmem, hle⟩
    cases h : earliest l with
    | none =>
      rw [earliest_eq_none.mp h] at hmem
      simp at hmem
    | some m =>
      have h1 : m ≤ a := earliest_le h a hmem
      have h2 : a ≤ m := hle m (earliest_mem h)
      rw [le_antisymm h1 h2]

lemma earliest_filter_or (l : List Transition) (p q : Transition → Bool) :
    earliest ((l.filter (fun t => p t || q t)).map (fun t => t.ts))
      = optMin (earliest ((l.filter p).map (fun t => t.ts)))
               (earliest ((l.filter q).map (fun t => t.ts))) := by
  induction l with
  | nil => rfl
  | cons t rest ih =>
    by_cases hp : p t = true <;> by_cases hq : q t = true <;>
      simp only [List.filter_cons, hp, hq, Bool.true_or, Bool.or_true,
        Bool.false_or, Bool.or_false, Bool.false_eq_true, if_true, if_false,
        List.map_cons, earliest, ih]
    · exact (optMin_some_distrib _ _ _).symm
    · exact (optMin_assoc _ _ _).symm
    · rw [← optMin_assoc, optMin_comm (some t.ts) _, optMin_assoc]

lemma statusMapsAtOrAfter_succ (stages : List StageDefinition) (i : Nat)
    (hi : i < stages.length) (st : String) :
    statusMapsAtOrAfter stages i st
      = ((stages.getD i default).statuses.contains st
          || statusMapsAtOrAfter stages (i + 1) st) := by
  unfold statusMapsAtOrAfter
  rw [List.drop_eq_getElem_cons hi, List.any_cons, List.getD_eq_getElem _ _ hi]

lemma stageEntry_rec (stages : List StageDefinition) (issue : IssueRecord)
    (i : Nat) (hi : i < stages.length) :
    stageEntry stages issue i
      = optMin (ownEntry stages issue i) (stageEntry stages issue (i + 1)) := by
  unfold stageEntry ownEntry
  rw [← earliest_filter_or]
  congr 2
  apply List.filter_congr
  intro t _
  exact statusMapsAtOrAfter_succ stages i hi t.status

lemma statusMapsAtOrAfter_mono {stages : List StageDefinition} {i j : Nat}
    (hij : i ≤ j) {st : String}
    (h : statusMapsAtOrAfter stages j st = true) :
    statusMapsAtOrAfter stages i st = true := by
  unfold statusMapsAtOrAfter at *
  rw [List.any_eq_true] at *
  obtain ⟨sd, hsd, hst⟩ := h
  refine ⟨sd, ?_, hst⟩
  have hdd : stages.drop j = (stages.drop i).drop (j - i) := by
    rw [List.drop_drop]
    congr 1
    omega
  rw [hdd] at hsd
  exact List.mem_of_mem_drop hsd

lemma stageEntry_mono_presence (stages : List StageDefinition)
    (issue : IssueRecord) {i j : Nat} (hij : i ≤ j) {b : Int}
    (hb : stageEntry stages issue j = some b) :
    ∃ a, stageEntry stages issue i = some a ∧ a ≤ b := by
  have hsubf : (issue.transitions.filter
        (fun t => statusMapsAtOrAfter stages j t.status)).Sublist
      (issue.transitions.filter
        (fun t => statusMapsAtOrAfter stages i t.status)) :=
    List.monotone_filter_right _ (fun t ht => statusMapsAtOrAfter_mono hij ht)
  have hsub := hsubf.map (fun t => t.ts)
  have hbmem : b ∈ (issue.transitions.filter
      (fun t => statusMapsAtOrAfter stages i t.status)).map (fun t => t.ts) :=
    hsub.mem (earliest_mem hb)
  cases ha : stageEntry stages issue i with
  | none =>
    unfold stageEntry at ha
    rw [earliest_eq_none.mp ha] at hbmem
    simp at hbmem
  | some a =>
    exact ⟨a, rfl, earliest_le ha b hbmem⟩

/-- Claim C1: for every issue and configured stage `i`, the engine assigns
as stage `i`'s entry timestamp the earliest transition into any status of
stage `i` or of any stage after it; a stage never individually visited
inherits the next stage's computed timestamp (the backfill rule); and a
stage with no mappable own-or-later status in the issue's history is left
absent rather than zero. -/
theorem stage_entry_backfill (stages : List StageDefinition)
    (issue : IssueRecord) (i : Nat) (hi : i < stages.length) :
    (∀ a : Int, stageEntry stages issue i = some a ↔
       ((∃ t ∈ issue.transitions,
           statusMapsAtOrAfter stages i t.status = true ∧ t.ts = a) ∧
        ∀ t ∈ issue.transitions,
          statusMapsAtOrAfter stages i t.status = true → a ≤ t.ts))
    ∧ ((∀ t ∈ issue.transitions,
          (stages.getD i default).statuses.contains t.status = false) →
        stageEntry stages issue i = stageEntry stages issue (i + 1))
    ∧ (stageEntry stages issue i = none ↔
        ∀ t ∈ issue.transitions, statusMapsAtOrAfter stages i t.status = false) := by
  refine ⟨?_, ?_, ?_⟩
  · intro a
    unfold stageEntry
    rw [earliest_eq_some_iff]
    simp only [List.mem_map, List.mem_filter]
    constructor
    · rintro ⟨⟨t, ⟨htl, htp⟩, hta⟩, hle⟩
      exact ⟨⟨t, htl, htp, hta⟩, fun u hul hup => hle u.ts ⟨u, ⟨hul, hup⟩, rfl⟩⟩
    · rintro ⟨⟨t, htl, htp, hta⟩, hle⟩
      refine ⟨⟨t, ⟨htl, htp⟩, hta⟩, ?_⟩
      rintro b ⟨u, ⟨hul, hup⟩, rfl⟩
      exact hle u hul hup
  · intro hnone
    rw [stageEntry_rec stages issue i hi]
    have hw : ownEntry stages issue i = none := by
      unfold ownEntry
      rw [earliest_eq_none, List.map_eq_nil_iff, List.filter_eq_nil_iff]
      intro t ht
      simpa using hnone t ht
    rw [hw]
    rfl
  · unfold stageEntry
    rw [earliest_eq_none, List.map_eq_nil_iff, List.filter_eq_nil_iff]
    simp only [Bool.not_eq_true]

/-- Witness for C1 at spec section 8's issue B: the Building stage (index 2)
was never visited and inherits the Done stage's timestamp, day 4. -/
theorem stage_entry_backfill_witness :
    stageEntry stagesEx issueB 2 = stageEntry stagesEx issueB 3
      ∧ stageEntry stagesEx issueB 2 = some 4 :=
  ⟨(stage_entry_backfill stagesEx issueB 2 (by decide)).2.1 (by decide),
   by decide⟩

/-- Claim C2: in every row produced by the engine, for every pair of stages
`i < j` whose timestamps are both present, the timestamp of stage `i` is at
most the timestamp of stage `j`. -/
theorem cycle_row_monotone (stages : List StageDefinition) (issue : IssueRecord)
    {i j : Nat} (hij : i < j) (hj : j < stages.length) {a b : Int}
    (ha : (cycleRow stages issue).getD i none = some a)
    (hb : (cycleRow stages issue).getD j none = some b) : a ≤ b := by
  have hi : i < stages.length := lt_trans hij hj
  have hgi : (cycleRow stages issue).getD i none = stageEntry stages issue i := by
    unfold cycleRow
    rw [List.getD_eq_getElem _ _ (by simpa using hi), List.getElem_map,
      List.getElem_range]
  have hgj : (cycleRow stages issue).getD j none = stageEntry stages issue j := by
    unfold cycleRow
    rw [List.getD_eq_getElem _ _ (by simpa using hj), List.getElem_map,
      List.getElem_range]
  rw [hgi] at ha
  rw [hgj] at hb
  obtain ⟨a', ha', hle⟩ := stageEntry_mono_presence stages issue (le_of_lt hij) hb
  rw [ha] at ha'
  injection ha' with h
  rw [h]
  exact hle

/-- Witness for C2 at spec section 8's issue B: Committed (index 1, day 2)
precedes Done (index 3, day 4). -/
theorem cycle_row_monotone_witness :
    (cycleRow stagesEx issueB).getD 1 none = some 2
      ∧ (cycleRow stagesEx issueB).getD 3 none = some 4
      ∧ (2 : Int) ≤ 4 :=
  ⟨by decide, by decide,
   @cycle_row_monotone stagesEx issueB 1 3 (by decide) (by decide) 2 4
     (by decide) (by decide)⟩

lemma cycleRow_getD (stages : List StageDefinition) (issue : IssueRecord)
    {i : Nat} (hi : i < stages.length) :
    (cycleRow stages issue).getD i none = stageEntry stages issue i := by
  unfold cycleRow
  rw [List.getD_eq_getElem _ _ (by simpa using hi), List.getElem_map,
    List.getElem_range]

lemma cycleRow_presenceClosed (stages : List StageDefinition)
    (issue : IssueRecord) : RowPresenceClosed (cycleRow stages issue) := by
  intro i j b hij hb
  by_cases hj : j < stages.length
  · have hi : i < stages.length := lt_of_le_of_lt hij hj
    rw [cycleRow_getD stages issue hj] at hb
    obtain ⟨a, ha, hab⟩ := stageEntry_mono_presence stages issue hij hb
    exact ⟨a, by rw [cycleRow_getD stages issue hi]; exact ha, hab⟩
  · exfalso
    have : (cycleRow stages issue).getD j none = none := by
      apply List.getD_eq_default
      simpa [cycleRow] using le_of_not_lt hj
    rw [this] at hb
    exact Option.noConfusion hb

/-- Counterexample to claim C3 as stated: the single row `[none, some 0]`
satisfies the literal where-present monotonicity invariant, yet on day 0 the
count of stage 0 (zero rows) is strictly below the count of stage 1 (one
row), refuting per-day inter-stage monotonicity of the CFD. -/
theorem cfd_stage_monotone_counterexample :
    RowStageMonotone [none, some 0]
      ∧ ¬ (cfdCell [[none, some 0]] 1 0 ≤ cfdCell [[none, some 0]] 0 0) := by
  constructor
  · intro i j a b hij ha hb
    rcases i with _ | _ | i
    · simp [List.getD] at ha
    · rcases j with _ | _ | j
      · omega
      · simp only [List.getD] at ha hb
        simp at ha hb
        omega
      · simp [List.getD] at hb
    · simp [List.getD] at ha
  · decide

/-- Claim C3 (amended): for the CFD table built from rows each satisfying
the presence-closed monotonicity invariant (the property the engine's
backfill actually guarantees, strictly stronger than where-present
monotonicity): each cell equals the count of rows whose stage timestamp is
at most that day, each stage column is non-decreasing across days, for every
fixed day the count of stage `i` is at least the count of stage `j ≥ i`,
and every engine-produced row satisfies that invariant. -/
theorem cfd_invariants (rows : List (List (Option Int)))
    (hrows : ∀ r ∈ rows, RowPresenceClosed r) :
    (∀ s d, cfdCell rows s d
        = (rows.filter (fun r => tsLe (stageTs r s) d)).length)
    ∧ (∀ s d d', d ≤ d' → cfdCell rows s d ≤ cfdCell rows s d')
    ∧ (∀ i j d, i ≤ j → cfdCell rows j d ≤ cfdCell rows i d)
    ∧ (∀ stages issue, RowPresenceClosed (cycleRow stages issue)) := by
  refine ⟨?_, ?_, ?_, fun stages issue => cycleRow_presenceClosed stages issue⟩
  · intro s d
    exact List.countP_eq_length_filter _ _
  · intro s d d' hdd
    apply List.countP_mono_left
    intro r _ hr
    cases h : stageTs r s with
    | none => simp [tsLe, h] at hr
    | some t =>
      simp only [h, tsLe, decide_eq_true_eq] at hr ⊢
      omega
  · intro i j d hij
    apply List.countP_mono_left
    intro r hrmem hr
    cases h : stageTs r j with
    | none => simp [tsLe, h] at hr
    | some t =>
      simp only [h, tsLe, decide_eq_true_eq] at hr
      obtain ⟨a, ha, hat⟩ := hrows r hrmem i j t hij h
      rw [show stageTs r i = some a from ha]
      simp only [tsLe, decide_eq_true_eq]
      omega

/-- Witness for the amended C3 at spec section 8's issue B: its engine row
is presence-closed, and on day 4 the four stage counts are 1, 1, 1, 1 while
on day 1 they are 1, 1, 0, 0 — non-decreasing across days and
non-increasing across stages. -/
theorem cfd_invariants_witness :
    cfdCell [cycleRow stagesEx issueB] 0 1 = 1
      ∧ cfdCell [cycleRow stagesEx issueB] 2 1 = 0
      ∧ cfdCell [cycleRow stagesEx issueB] 2 4 = 1
      ∧ (∀ s d d', d ≤ d' →
          cfdCell [cycleRow stagesEx issueB] s d
            ≤ cfdCell [cycleRow stagesEx issueB] s d')
      ∧ (∀ i j d, i ≤ j →
          cfdCell [cycleRow stagesEx issueB] j d
            ≤ cfdCell [cycleRow stagesEx issueB] i d) :=
  ⟨by decide, by decide, by decide,
   (cfd_invariants [cycleRow stagesEx issueB]
      (by
        intro r hr
        rw [List.mem_singleton] at hr
        rw [hr]
        exact cycleRow_presenceClosed stagesEx issueB)).2.1,
   (cfd_invariants [cycleRow stagesEx issueB]
      (by
        intro r hr
        rw [List.mem_singleton] at hr
        rw [hr]
        exact cycleRow_presenceClosed stagesEx issueB)).2.2.1⟩

/-- Claim C5: for every row whose completed (last-stage) timestamp is
present, the extractor returns completed minus committed in whole days
clamped to a minimum of 0; a negative raw difference produces duration 0,
and the computation never aborts (a committed timestamp always exists by
backfill, and some duration is always returned). -/
theorem duration_clamped (stages : List StageDefinition) (issue : IssueRecord)
    (hlen : 2 ≤ stages.length) {c : Int}
    (hc : stageEntry stages issue (stages.length - 1) = some c) :
    ∃ m, stageEntry stages issue 1 = some m
      ∧ rowDuration stages issue = some (max 0 (c - m))
      ∧ (c - m < 0 → rowDuration stages issue = some 0)
      ∧ ∀ d, rowDuration stages issue = some d → 0 ≤ d := by
  obtain ⟨m, hm, hmc⟩ := stageEntry_mono_presence stages issue
    (show 1 ≤ stages.length - 1 by omega) hc
  have hdur : rowDuration stages issue = some (max 0 (c - m)) := by
    unfold rowDuration
    rw [hc, hm]
  refine ⟨m, hm, hdur, ?_, ?_⟩
  · intro hneg
    rw [hdur, max_eq_left (by omega : c - m ≤ 0)]
  · intro d hd
    rw [hdur] at hd
    injection hd with hd
    rw [← hd]
    exact le_max_left 0 (c - m)

/-- Witness for C5 at spec section 8's issue B: completed day 4, committed
day 2, duration 2. -/
theorem duration_clamped_witness :
    ∃ m, stageEntry stagesEx issueB 1 = some m
      ∧ rowDuration stagesEx issueB = some (max 0 (4 - m))
      ∧ (4 - m < 0 → rowDuration stagesEx issueB = some 0)
      ∧ ∀ d, rowDuration stagesEx issueB = some d → 0 ≤ d :=
  duration_clamped stagesEx issueB (by decide) (by decide)

/-- Claim C4: an aggregate with no eligible input returns an explicit
undefined result instead of raising — percentiles and histogram over zero
completed issues give `none`, and a forecast whose historical throughput is
entirely zero is caught by the up-front guard and gives `none` without the
Monte-Carlo loop running. -/
theorem aggregates_undefined_on_empty (q : ℚ)
    (throughput : List Nat) (trials target done fuel : Nat)
    (draw : Nat → Nat → Nat)
    (hzero : throughput.all (fun x => x == 0) = true) :
    percentile [] q = none
      ∧ histogram [] = none
      ∧ burnupForecast throughput trials target done fuel draw = none := by
  refine ⟨rfl, rfl, ?_⟩
  simp [burnupForecast, hzero]

/-- Witness for C4: the all-zero two-day series with a pending target of 5
yields the undefined forecast, and the empty duration set yields undefined
median and histogram. -/
theorem aggregates_undefined_on_empty_witness :
    percentile [] (1/2) = none
      ∧ histogram [] = none
      ∧ burnupForecast [0, 0] 3 5 0 10 (fun _ _ => 0) = none :=
  aggregates_undefined_on_empty (1/2) [0, 0] 3 5 0 10 (fun _ _ => 0) (by decide)

/-- Claim C9: a burn-up forecast target of 0 is coerced to the absent value
(exactly as if no target were supplied), a trials value of 0 is coerced to
100, and no zero value can reach the forecast through either option. -/
theorem forecast_zero_option_coercion :
    coerceForecastTarget (some 0) = none
      ∧ coerceForecastTarget (some 0) = coerceForecastTarget none
      ∧ coerceForecastTrials 0 = 100
      ∧ (∀ t, coerceForecastTarget t ≠ some 0)
      ∧ (∀ t, coerceForecastTrials t ≠ 0) := by
  refine ⟨rfl, rfl, rfl, ?_, ?_⟩
  · intro t
    match t with
    | none => simp [coerceForecastTarget]
    | some v =>
      by_cases hv : v = 0 <;> simp [coerceForecastTarget, hv]
  · intro t
    unfold coerceForecastTrials
    by_cases ht : t = 0 <;> simp [ht]

/-- Claim C8: the per-issue output column list is the issue metadata plus
exactly one column per configured stage name, the stage columns appearing
contiguously in configured stage order. -/
theorem output_columns_contract (cycle : List StageDefinition)
    (fieldNames queryAttrNames : List String) :
    outputColumns (cycleColumnNames cycle) fieldNames queryAttrNames
      = ["key", "url", "summary"] ++ cycleColumnNames cycle
          ++ ["issue_type", "status", "resolution"] ++ fieldNames ++ queryAttrNames
    ∧ (cycleColumnNames cycle).length = cycle.length
    ∧ ∀ i (hi : i < cycle.length),
        (cycleColumnNames cycle).getD i "" = (cycle.get ⟨i, hi⟩).name := by
  refine ⟨rfl, by simp [cycleColumnNames], ?_⟩
  intro i hi
  unfold cycleColumnNames
  rw [List.getD_eq_getElem _ _ (by simpa using hi), List.getElem_map]
  rfl

/-- Witness for C8 on the spec section 8 configuration: the third stage
column is "Building". -/
theorem output_columns_contract_witness :
    (cycleColumnNames stagesEx).getD 2 "" = (stagesEx.get ⟨2, by decide⟩).name :=
  (output_columns_contract stagesEx ["estimate"] []).2.2 2 (by decide)

lemma countP_or_disjoint {α : Type} (p q : α → Bool) (l : List α)
    (h : ∀ x ∈ l, ¬(p x = true ∧ q x = true)) :
    l.countP (fun x => p x || q x) = l.countP p + l.countP q := by
  induction l with
  | nil => rfl
  | cons a l ih =>
    have ha := h a (List.mem_cons_self a l)
    have ih2 := ih (fun x hx => h x (List.mem_cons_of_mem a hx))
    by_cases hp : p a = true
    · by_cases hq : q a = true
      · exact absurd ⟨hp, hq⟩ ha
      · simp only [List.countP_cons, hp, hq, Bool.true_or, Bool.false_eq_true,
          if_true, if_false, ih2]
        omega
    · by_cases hq : q a = true <;>
        simp only [List.countP_cons, hp, hq, Bool.false_or, Bool.false_eq_true,
          if_true, if_false, ih2] <;>
        omega

lemma sum_countP_days (days : List Int) (hnd : days.Nodup)
    (xs : List (Option Int)) :
    (days.map (fun d => xs.countP (fun c => c == some d))).sum
      = xs.countP (fun c => days.any (fun d => c == some d)) := by
  induction days with
  | nil => simp
  | cons d ds ih =>
    rw [List.map_cons, List.sum_cons, ih (List.nodup_cons.mp hnd).2]
    rw [show xs.countP (fun c => (d :: ds).any (fun e => c == some e))
        = xs.countP (fun c => (c == some d) || ds.any (fun e => c == some e)) from
      List.countP_congr (fun c _ => by rw [List.any_cons])]
    rw [countP_or_disjoint]
    intro x _ hx
    obtain ⟨h1, h2⟩ := hx
    have hxd : x = some d := by simpa using h1
    rw [List.any_eq_true] at h2
    obtain ⟨e, he, hxe⟩ := h2
    have : e = d := by
      have : x = some e := by simpa using hxe
      rw [hxd] at this
      exact (Option.some.injEq _ _ ▸ this).symm
    rw [this] at he
    exact (List.nodup_cons.mp hnd).1 he

lemma mem_windowDaysList {today : Int} {w : Nat} {d : Int} :
    d ∈ windowDaysList today w ↔ today - (w : Int) < d ∧ d ≤ today := by
  unfold windowDaysList
  rw [List.mem_map]
  constructor
  · rintro ⟨k, hk, rfl⟩
    rw [List.mem_range] at hk
    omega
  · rintro ⟨h1, h2⟩
    refine ⟨(d - (today - (w : Int) + 1)).toNat, ?_, ?_⟩
    · rw [List.mem_range]
      omega
    · omega

lemma windowDaysList_nodup (today : Int) (w : Nat) :
    (windowDaysList today w).Nodup := by
  unfold windowDaysList
  exact (List.nodup_range w).map (fun a b hab => by omega)

/-- Claim C6: the throughput series has exactly `w` daily entries; only
completions within the trailing `w` days of today are counted; entry `k`
is the completion count of calendar day `today − w + 1 + k` (0 for days
with no completions); and the entries sum to the number of completions in
the window. -/
theorem throughput_series_contract (completions : List (Option Int))
    (w : Nat) (today : Int) :
    (throughputSeries completions w today).length = w
    ∧ (∀ k, k < w →
        (throughputSeries completions w today).getD k 0
          = completions.countP (fun c => c == some (today - (w : Int) + 1 + k)))
    ∧ (throughputSeries completions w today).sum
        = (completions.filter (inWindow today w)).length := by
  refine ⟨by simp [throughputSeries, windowDaysList], ?_, ?_⟩
  · intro k hk
    have hlen : k < (windowDaysList today w).length := by
      simpa [windowDaysList] using hk
    unfold throughputSeries
    rw [List.getD_eq_getElem _ _ (by simpa [windowDaysList] using hk),
      List.getElem_map]
    have hday : (windowDaysList today w)[k] = today - (w : Int) + 1 + k := by
      unfold windowDaysList
      rw [List.getElem_map, List.getElem_range]
    rw [hday, List.countP_filter]
    apply List.countP_congr
    intro c _
    constructor
    · intro hc
      rw [Bool.and_eq_true] at hc
      exact hc.1
    · intro hc
      rw [Bool.and_eq_true]
      refine ⟨hc, ?_⟩
      have : c = some (today - (w : Int) + 1 + k) := by simpa using hc
      rw [this]
      unfold inWindow
      simp only [decide_eq_true_eq]
      omega
  · unfold throughputSeries
    rw [sum_countP_days _ (windowDaysList_nodup today w)]
    rw [List.countP_eq_length]
    intro c hc
    rw [List.mem_filter] at hc
    obtain ⟨-, hcw⟩ := hc
    cases c with
    | none => simp [inWindow] at hcw
    | some e =>
      simp only [inWindow, decide_eq_true_eq] at hcw
      rw [List.any_eq_true]
      exact ⟨e, mem_windowDaysList.mpr hcw, by simp⟩

/-- Witness for C6 with completions on days 0, 2 and 4, one incomplete row,
window 3 days and today day 4: the middle entry counts day 3 (zero
completions), and evaluating the series gives [1, 0, 1]. -/
theorem throughput_series_contract_witness :
    ((throughputSeries [some 0, some 2, some 4, none] 3 4).getD 1 0
      = [some 0, some 2, some 4, none].countP
          (fun c => c == some (4 - ((3 : Nat) : Int) + 1 + ((1 : Nat) : Int))))
      ∧ throughputSeries [some 0, some 2, some 4, none] 3 4 = [1, 0, 1] :=
  ⟨(throughput_series_contract [some 0, some 2, some 4, none] 3 4).2.1 1
     (by decide),
   by decide⟩

/-- Claim C10: with `--quantiles` absent the resolved quantile list is
exactly [0.3, 0.5, 0.75, 0.85, 0.95] in that order, and that same list is
what main passes to the percentile computation and to every charting call;
with `--quantiles` supplied but unparseable, main prints a usage message and
returns before connecting to JIRA or computing anything. -/
theorem quantiles_default_and_parse_guard :
    resolveQuantiles none = QuantilesResolution.proceed defaultQuantiles
    ∧ defaultQuantiles = [3/10, 1/2, 3/4, 17/20, 19/20]
    ∧ (∀ s, resolveQuantiles (some s) = QuantilesResolution.usage →
        mainQuantileFlow (some s) = [MainStep.printUsage]
          ∧ MainStep.connectJira ∉ mainQuantileFlow (some s))
    ∧ (∀ arg qs, resolveQuantiles arg = QuantilesResolution.proceed qs →
        mainQuantileFlow arg
          = [MainStep.connectJira, MainStep.computePercentiles qs,
             MainStep.chartWithPercentiles qs]) := by
  refine ⟨rfl, rfl, ?_, ?_⟩
  · intro s hs
    unfold mainQuantileFlow
    rw [hs]
    exact ⟨rfl, by simp⟩
  · intro arg qs h
    unfold mainQuantileFlow
    rw [h]

/-- Witness for C10: the unparseable option text "abc" resolves to the
usage outcome and the flow never reaches JIRA, while an absent option
proceeds to the percentile and chart calls with the default quantile
list. -/
theorem quantiles_default_and_parse_guard_witness :
    (mainQuantileFlow (some "abc".toList) = [MainStep.printUsage]
      ∧ MainStep.connectJira ∉ mainQuantileFlow (some "abc".toList))
    ∧ mainQuantileFlow none
        = [MainStep.connectJira, MainStep.computePercentiles defaultQuantiles,
           MainStep.chartWithPercentiles defaultQuantiles] :=
  ⟨quantiles_default_and_parse_guard.2.2.1 "abc".toList (by decide),
   quantiles_default_and_parse_guard.2.2.2 none defaultQuantiles rfl⟩

lemma sortQ_sorted (l : List ℚ) : (sortQ l).Pairwise (fun a b => a ≤ b) := by
  unfold sortQ
  have h := @List.sorted_mergeSort ℚ (fun a b => decide (a ≤ b))
    (fun a b c hab hbc => by
      simp only [decide_eq_true_eq] at hab hbc ⊢
      exact le_trans hab hbc)
    (fun a b => by
      simp only [Bool.or_eq_true, decide_eq_true_eq]
      exact le_total a b)
    l
  exact h.imp (fun hab => by simpa using hab)

lemma sortQ_length (l : List ℚ) : (sortQ l).length = l.length :=
  (List.mergeSort_perm l _).length_eq

lemma sorted_getD_mono {s : List ℚ} (hs : s.Pairwise (fun a b => a ≤ b))
    {i j : Nat} (hij : i ≤ j) (hj : j < s.length) :
    s.getD i 0 ≤ s.getD j 0 := by
  have hi : i < s.length := lt_of_le_of_lt hij hj
  rcases eq_or_lt_of_le hij with rfl | hlt
  · exact le_refl _
  · rw [List.getD_eq_getElem _ _ hi, List.getD_eq_getElem _ _ hj]
    exact List.pairwise_iff_get.mp hs ⟨i, hi⟩ ⟨j, hj⟩ hlt

lemma floor_le_len_sub_one {s : List ℚ} (hne : s ≠ []) {h : ℚ}
    (hn : h ≤ (s.length : ℚ) - 1) : Int.floor h ≤ (s.length : Int) - 1 := by
  have h1 : 1 ≤ s.length := List.length_pos.mpr hne
  have : ((s.length : Int) - 1 : Int) = Int.floor ((s.length : ℚ) - 1) := by
    rw [show ((s.length : ℚ) - 1) = (((s.length : Int) - 1 : Int) : ℚ) by push_cast; ring]
    rw [Int.floor_intCast]
  rw [this]
  exact Int.floor_le_floor hn

lemma interpAt_bounds {s : List ℚ} (hs : s.Pairwise (fun a b => a ≤ b))
    (hne : s ≠ []) {h : ℚ} (h0 : 0 ≤ h) (hn : h ≤ (s.length : ℚ) - 1) :
    s.getD (Int.floor h).toNat 0 ≤ interpAt s h
      ∧ interpAt s h ≤ s.getD (min ((Int.floor h).toNat + 1) (s.length - 1)) 0 := by
  have hlen : 1 ≤ s.length := List.length_pos.mpr hne
  have hf0 : 0 ≤ Int.floor h := Int.le_floor.mpr (by exact_mod_cast h0)
  have hfle : Int.floor h ≤ (s.length : Int) - 1 := floor_le_len_sub_one hne hn
  have hlo : (Int.floor h).toNat ≤ s.length - 1 := by omega
  have hhi : min ((Int.floor h).toNat + 1) (s.length - 1) < s.length := by omega
  have hlohi : (Int.floor h).toNat ≤ min ((Int.floor h).toNat + 1) (s.length - 1) := by
    omega
  have hxx : s.getD (Int.floor h).toNat 0
      ≤ s.getD (min ((Int.floor h).toNat + 1) (s.length - 1)) 0 :=
    sorted_getD_mono hs hlohi hhi
  have hfrac0 : 0 ≤ h - Int.floor h := sub_nonneg.mpr (Int.floor_le h)
  have hfrac1 : h - Int.floor h ≤ 1 := by
    have := Int.lt_floor_add_one h
    linarith
  constructor
  · unfold interpAt
    nlinarith
  · unfold interpAt
    nlinarith

lemma interpAt_mono {s : List ℚ} (hs : s.Pairwise (fun a b => a ≤ b))
    (hne : s ≠ []) {h1 h2 : ℚ} (h0 : 0 ≤ h1) (h12 : h1 ≤ h2)
    (hn : h2 ≤ (s.length : ℚ) - 1) : interpAt s h1 ≤ interpAt s h2 := by
  have hlen : 1 ≤ s.length := List.length_pos.mpr hne
  have hf12 : Int.floor h1 ≤ Int.floor h2 := Int.floor_le_floor h12
  have hf10 : 0 ≤ Int.floor h1 := Int.le_floor.mpr (by exact_mod_cast h0)
  have hf2le : Int.floor h2 ≤ (s.length : Int) - 1 := floor_le_len_sub_one hne hn
  rcases eq_or_lt_of_le hf12 with heq | hlt
  · have hxx : s.getD (Int.floor h1).toNat 0
        ≤ s.getD (min ((Int.floor h1).toNat + 1) (s.length - 1)) 0 :=
      sorted_getD_mono hs (by omega) (by omega)
    unfold interpAt
    rw [← heq]
    nlinarith
  · have hstep : min ((Int.floor h1).toNat + 1) (s.length - 1)
        ≤ (Int.floor h2).toNat := by omega
    have hlo2 : (Int.floor h2).toNat < s.length := by omega
    calc interpAt s h1
        ≤ s.getD (min ((Int.floor h1).toNat + 1) (s.length - 1)) 0 :=
          (interpAt_bounds hs hne h0 (le_trans h12 hn)).2
      _ ≤ s.getD (Int.floor h2).toNat 0 := sorted_getD_mono hs hstep hlo2
      _ ≤ interpAt s h2 :=
          (interpAt_bounds hs hne (le_trans h0 h12) hn).1

/-- Claim C7: for every non-empty duration set and every pair of requested
quantiles `q1 < q2` in [0, 1], the percentile calculator — linear
interpolation between the order statistics of the durations — returns
defined values `v1 ≤ v2`. -/
theorem percentile_order (l : List ℚ) (hne : l ≠ []) {q1 q2 : ℚ}
    (h0 : 0 ≤ q1) (h12 : q1 < q2) (h1 : q2 ≤ 1) :
    ∃ v1 v2, percentile l q1 = some v1 ∧ percentile l q2 = some v2
      ∧ v1 ≤ v2 := by
  obtain ⟨x, xs, rfl⟩ : ∃ x xs, l = x :: xs := by
    cases l with
    | nil => exact absurd rfl hne
    | cons x xs => exact ⟨x, xs, rfl⟩
  refine ⟨_, _, rfl, rfl, ?_⟩
  have hslen : (sortQ (x :: xs)).length = (x :: xs).length := sortQ_length _
  have hsne : sortQ (x :: xs) ≠ [] := by
    intro hnil
    rw [hnil] at hslen
    simp at hslen
  have hc0 : (0 : ℚ) ≤ ((x :: xs).length : ℚ) - 1 := by
    have : 1 ≤ (x :: xs).length := by simp
    have : (1 : ℚ) ≤ ((x :: xs).length : ℚ) := by exact_mod_cast this
    linarith
  apply interpAt_mono (sortQ_sorted _) hsne
  · exact mul_nonneg h0 hc0
  · exact mul_le_mul_of_nonneg_right (le_of_lt h12) hc0
  · rw [hslen]
    calc q2 * (((x :: xs).length : ℚ) - 1)
        ≤ 1 * (((x :: xs).length : ℚ) - 1) :=
          mul_le_mul_of_nonneg_right h1 hc0
      _ = ((x :: xs).length : ℚ) - 1 := one_mul _

/-- Witness for C7 on the spec section 8 duration set [2, 4] with quantiles
0.3 and 0.5: both percentile values are defined and ordered. -/
theorem percentile_order_witness :
    ∃ v1 v2, percentile [2, 4] (3/10) = some v1
      ∧ percentile [2, 4] (1/2) = some v2 ∧ v1 ≤ v2 :=
  percentile_order [2, 4] (by simp) (by norm_num) (by norm_num) (by norm_num)
